import Mathlib

/-!
Verification of `extract_parent_predicates.py`: the Biolink predicate
hierarchy analysis pipeline (per-node metrics, optimal-parent selection,
predicate-set construction).

A JSON tree node carries an optional `name` field and an optional
`children` field; absence of `children` is distinct from an empty list.
Python floats are modelled as exact rationals (`ℚ`): every division the
program performs is over small integer operands.
-/

/-- A hierarchy node as parsed from the JSON `treeData`: the `name` key may
be absent (`none`) and the `children` key may be absent (`none`) or present
with a (possibly empty) ordered list. -/
inductive Node : Type where
  | mk (name : Option String) (children : Option (List Node)) : Node
deriving Repr

namespace Node

/-- The `name` field, `none` when the key is absent. -/
def name? : Node → Option String
  | .mk n _ => n

/-- The `children` field, `none` when the key is absent. -/
def children? : Node → Option (List Node)
  | .mk _ c => c

/-- `'children' in node` in the Python source. -/
def hasChildren (n : Node) : Bool :=
  n.children?.isSome

/-- The list of children, empty when the `children` key is absent. -/
def childList (n : Node) : List Node :=
  n.children?.getD []

/-- `direct_children` of `count_children_recursive`: the number of
immediate children, `0` when the `children` key is absent. -/
def directChildren : Node → Nat
  | .mk _ none => 0
  | .mk _ (some cs) => cs.length

end Node

mutual

/-- `total_children` of `count_children_recursive` (line 39-52 of the
source): `0` when the `children` key is absent, otherwise the number of
immediate children plus the sum of the children's own totals. -/
def Node.totalChildren : Node → Nat
  | .mk _ none => 0
  | .mk _ (some cs) => cs.length + totalChildrenList cs

/-- Sum of `Node.totalChildren` over a list of nodes (the loop at
line 48-50 of the source). -/
def totalChildrenList : List Node → Nat
  | [] => 0
  | c :: cs => Node.totalChildren c + totalChildrenList cs

end

mutual

/-- `extract_all_predicates` (line 54-65): collect, in pre-order, the
`name` of every node that has one; the traversal recurses into the
children of every node that has a `children` key, named or not. -/
def extract_all_predicates : Node → List String
  | .mk nm cs =>
    (match nm with | some s => [s] | none => []) ++
    (match cs with | some l => extractList l | none => [])

/-- `extract_all_predicates` extended over a child list (line 62-63). -/
def extractList : List Node → List String
  | [] => []
  | c :: cs => extract_all_predicates c ++ extractList cs

end

mutual

/-- Total number of nodes in the tree rooted at `n`, root included. -/
def Node.size : Node → Nat
  | .mk _ none => 1
  | .mk _ (some cs) => 1 + sizeList cs

/-- Sum of `Node.size` over a list of nodes. -/
def sizeList : List Node → Nat
  | [] => 0
  | c :: cs => Node.size c + sizeList cs

end

/-- One entry of the `analysis` list built by `analyze_node`
(line 88-96 of the source). Python floats are modelled as `ℚ`. -/
structure NodeMetrics where
  name : String
  depth : Nat
  direct_children : Nat
  total_children : Nat
  coverage_ratio : ℚ
  efficiency : ℚ
  has_children : Bool
deriving Repr, DecidableEq

/-- The metrics record `analyze_node` appends for a named node `n` at
`depth`, with `denom = len(all_predicates)` fixed for the whole run:
`coverage_ratio = total_children / denom` (or `0` when the predicate list
is empty) and `efficiency = total_children / (depth + 1)` when
`depth > 0`, else `total_children` (line 85-96). -/
def mkMetrics (denom : Nat) (nm : String) (children : Option (List Node)) (depth : Nat) : NodeMetrics :=
  let tc := Node.totalChildren (.mk (some nm) children)
  { name := nm
    depth := depth
    direct_children := Node.directChildren (.mk (some nm) children)
    total_children := tc
    coverage_ratio := if denom = 0 then 0 else (tc : ℚ) / (denom : ℚ)
    efficiency := if 0 < depth then (tc : ℚ) / ((depth : ℚ) + 1) else (tc : ℚ)
    has_children := children.isSome }

mutual

/-- `analyze_node` (line 78-101): return without emitting anything — and
without visiting children — when the `name` key is absent; otherwise
append this node's metrics and recurse into the children (if the
`children` key is present) at `depth + 1`. -/
def analyzeNode (denom : Nat) : Node → Nat → List NodeMetrics
  | .mk none _, _ => []
  | .mk (some nm) cs, depth =>
    mkMetrics denom nm cs depth ::
      (match cs with
       | some l => analyzeList denom l (depth + 1)
       | none => [])

/-- `analyze_node` iterated over a child list (line 100-101). -/
def analyzeList (denom : Nat) : List Node → Nat → List NodeMetrics
  | [], _ => []
  | c :: cs, d => analyzeNode denom c d ++ analyzeList denom cs d

end

/-- `analyze_hierarchy` restricted to its pure core (line 67-105): compute
`all_predicates` once from the root, then run `analyze_node(root)` with
that fixed denominator, starting at depth `0`. -/
def analyze_hierarchy (root : Node) : List NodeMetrics :=
  analyzeNode (extract_all_predicates root).length root 0

/-- The filter predicate of `find_optimal_parents` (line 111-117):
`has_children` and `total_children >= min_children` and
`depth <= max_depth` and `name != 'related_to'`. -/
def optimalFilter (min_children max_depth : Nat) (n : NodeMetrics) : Bool :=
  n.has_children && decide (min_children ≤ n.total_children) &&
    decide (n.depth ≤ max_depth) && decide (n.name ≠ "related_to")

/-- The sort order of `find_optimal_parents` (line 120): `a` may precede
`b` when `a`'s efficiency is at least `b`'s. -/
def effGE (a b : NodeMetrics) : Bool :=
  decide (b.efficiency ≤ a.efficiency)

/-- `find_optimal_parents` (line 107-122): filter the analysis list, then
sort the survivors by `efficiency` in descending order. Python's
`list.sort(key=..., reverse=True)` is a stable sort; `List.mergeSort`
with `effGE` is the same stable descending order. -/
def find_optimal_parents (analysis : List NodeMetrics)
    (min_children : Nat := 5) (max_depth : Nat := 3) : List NodeMetrics :=
  (analysis.filter (optimalFilter min_children max_depth)).mergeSort effGE

/-- The four named predicate sets built by `create_predicate_sets`. -/
structure PredicateSets where
  comprehensive : List String
  focused : List String
  minimal : List String
  high_level : List String
deriving Repr, DecidableEq

/-- `create_predicate_sets` (line 124-153): rank with the tighter profile
`min_children=10, max_depth=2`, then take `comprehensive` = names of the
first 5 entries; `focused` = first 8 with `20 <= total_children <= 50`;
`minimal` = first 6 with `5 <= total_children <= 20`; `high_level` =
first 6 with `depth <= 2`. -/
def create_predicate_sets (analysis : List NodeMetrics) : PredicateSets :=
  let optimal_parents := find_optimal_parents analysis 10 2
  { comprehensive := (optimal_parents.take 5).map (·.name)
    focused := ((optimal_parents.filter
        (fun p => decide (20 ≤ p.total_children) && decide (p.total_children ≤ 50))).take 8).map (·.name)
    minimal := ((optimal_parents.filter
        (fun p => decide (5 ≤ p.total_children) && decide (p.total_children ≤ 20))).take 6).map (·.name)
    high_level := ((optimal_parents.filter
        (fun p => decide (p.depth ≤ 2))).take 6).map (·.name) }

/-- The spec's worked example: root `A` with children `[B, C]`, `B` with
five leaf children `D,E,F,G,H`, `C` with a present-but-empty child
list. -/
def exampleTree : Node :=
  .mk (some "A") (some [
    .mk (some "B") (some [.mk (some "D") none, .mk (some "E") none,
      .mk (some "F") none, .mk (some "G") none, .mk (some "H") none]),
    .mk (some "C") (some [])])

/-- The spec's malformed-node example: `A → [B(no name), C]` where the
nameless `B` has named children `[D, E]`. -/
def malformedTree : Node :=
  .mk (some "A") (some [
    .mk none (some [.mk (some "D") none, .mk (some "E") none]),
    .mk (some "C") none])

/-- A tree whose only named node is the root: `A → B(no name) → C(no
name)`. -/
def namelessChainTree : Node :=
  .mk (some "A") (some [.mk none (some [.mk none none])])

/-- The metrics record the analyzer emits for node `B` of `exampleTree`:
`B` sits at depth 1 with five leaf children, and the full predicate list
has 8 entries. -/
def bEntry : NodeMetrics :=
  { name := "B", depth := 1, direct_children := 5, total_children := 5,
    coverage_ratio := 5/8, efficiency := 5/2, has_children := true }

/-- The metrics record the analyzer emits for the root `A` of
`namelessChainTree`: its two strict descendants are nameless, so the
fixed predicate list has a single entry. -/
def chainEntry : NodeMetrics :=
  { name := "A", depth := 0, direct_children := 1, total_children := 2,
    coverage_ratio := 2, efficiency := 2, has_children := true }

/-- A metrics record that passes the optimal-parent filter at
`min_children = 1, max_depth = 3`. -/
def passEntry : NodeMetrics :=
  { name := "B", depth := 1, direct_children := 5, total_children := 5,
    coverage_ratio := 5/8, efficiency := 5/2, has_children := true }

/-- A metrics record named `related_to`, the root-equivalent sentinel. -/
def relatedToEntry : NodeMetrics :=
  { name := "related_to", depth := 0, direct_children := 2, total_children := 7,
    coverage_ratio := 7/8, efficiency := 7, has_children := true }

/-- Two records with equal efficiency, distinguishable by name, both
passing the optimal-parent filter at `min_children = 1, max_depth = 3`. -/
def twinEntry1 : NodeMetrics :=
  { name := "X", depth := 1, direct_children := 3, total_children := 3,
    coverage_ratio := 3/8, efficiency := 3/2, has_children := true }

/-- Second of the two equal-efficiency records. -/
def twinEntry2 : NodeMetrics :=
  { name := "Y", depth := 1, direct_children := 3, total_children := 3,
    coverage_ratio := 3/8, efficiency := 3/2, has_children := true }

mutual

/-- Names of the nodes the analyzer visits and emits, per the spec's
description of the traversal: stop (emitting nothing) at a node with no
`name`, otherwise emit the name and continue into the children in
pre-order. -/
def visibleNames : Node → List String
  | .mk none _ => []
  | .mk (some nm) none => [nm]
  | .mk (some nm) (some cs) => nm :: visibleNamesList cs

/-- `visibleNames` over a child list. -/
def visibleNamesList : List Node → List String
  | [] => []
  | c :: cs => visibleNames c ++ visibleNamesList cs

end

mutual

/-- Number of nodes of the whole tree that carry a `name` field,
nameless-rooted subtrees included. -/
def Node.namedCount : Node → Nat
  | .mk nm none => if nm.isSome then 1 else 0
  | .mk nm (some cs) => (if nm.isSome then 1 else 0) + namedCountList cs

/-- `Node.namedCount` summed over a list of nodes. -/
def namedCountList : List Node → Nat
  | [] => 0
  | c :: cs => Node.namedCount c + namedCountList cs

end

mutual

/-- Sum of `direct_children` over every node of the tree. -/
def Node.sumDirect : Node → Nat
  | .mk nm none => Node.directChildren (.mk nm none)
  | .mk nm (some cs) => Node.directChildren (.mk nm (some cs)) + sumDirectList cs

/-- `Node.sumDirect` summed over a list of nodes. -/
def sumDirectList : List Node → Nat
  | [] => 0
  | c :: cs => Node.sumDirect c + sumDirectList cs

end

mutual

/-- Remove every `name` field of the tree, leaving the child structure
untouched. -/
def Node.stripNames : Node → Node
  | .mk _ none => .mk none none
  | .mk _ (some cs) => .mk none (some (stripNamesList cs))

/-- `Node.stripNames` mapped over a list of nodes. -/
def stripNamesList : List Node → List Node
  | [] => []
  | c :: cs => Node.stripNames c :: stripNamesList cs

end

mutual

/-- `true` iff every node of the tree carries a `name` field. -/
def Node.allNamed : Node → Bool
  | .mk nm none => nm.isSome
  | .mk nm (some cs) => nm.isSome && allNamedList cs

/-- `Node.allNamed` over a list of nodes. -/
def allNamedList : List Node → Bool
  | [] => true
  | c :: cs => Node.allNamed c && allNamedList cs

end

theorem totalChildrenList_eq_sum (cs : List Node) :
    totalChildrenList cs = (cs.map Node.totalChildren).sum := by
  induction cs with
  | nil => rfl
  | cons c cs ih => simp [totalChildrenList, ih]

mutual

theorem Node.totalChildren_add_one : ∀ (n : Node), n.totalChildren + 1 = n.size
  | .mk _ none => rfl
  | .mk _ (some cs) => by
    have h := totalChildrenList_add_length cs
    simp only [Node.totalChildren, Node.size]
    omega

theorem totalChildrenList_add_length : ∀ (cs : List Node),
    totalChildrenList cs + cs.length = sizeList cs
  | [] => rfl
  | c :: cs => by
    have h1 := Node.totalChildren_add_one c
    have h2 := totalChildrenList_add_length cs
    simp only [totalChildrenList, sizeList, List.length_cons]
    omega

end

mutual

theorem Node.sumDirect_add_one : ∀ (n : Node), n.sumDirect + 1 = n.size
  | .mk _ none => rfl
  | .mk nm (some cs) => by
    have h := sumDirectList_add_length cs
    simp only [Node.sumDirect, Node.size, Node.directChildren]
    omega

theorem sumDirectList_add_length : ∀ (cs : List Node),
    sumDirectList cs + cs.length = sizeList cs
  | [] => rfl
  | c :: cs => by
    have h1 := Node.sumDirect_add_one c
    have h2 := sumDirectList_add_length cs
    simp only [sumDirectList, sizeList, List.length_cons]
    omega

end

mutual

theorem extract_length_eq_namedCount : ∀ (n : Node),
    (extract_all_predicates n).length = n.namedCount
  | .mk nm none => by
    cases nm <;> simp [extract_all_predicates, Node.namedCount]
  | .mk nm (some cs) => by
    have h := extractList_length_eq_namedCountList cs
    cases nm with
    | none => simp [extract_all_predicates, Node.namedCount, h]
    | some s =>
      simp [extract_all_predicates, Node.namedCount, h]
      omega

theorem extractList_length_eq_namedCountList : ∀ (cs : List Node),
    (extractList cs).length = namedCountList cs
  | [] => rfl
  | c :: cs => by
    have h1 := extract_length_eq_namedCount c
    have h2 := extractList_length_eq_namedCountList cs
    simp [extractList, namedCountList, h1, h2]

end

mutual

theorem analyzeNode_map_name : ∀ (denom : Nat) (n : Node) (d : Nat),
    (analyzeNode denom n d).map NodeMetrics.name = visibleNames n
  | _, .mk none cs, _ => by
    cases cs <;> rfl
  | denom, .mk (some nm) none, d => rfl
  | denom, .mk (some nm) (some cs), d => by
    have h := analyzeList_map_name denom cs (d + 1)
    simp [analyzeNode, visibleNames, mkMetrics, h]

theorem analyzeList_map_name : ∀ (denom : Nat) (cs : List Node) (d : Nat),
    (analyzeList denom cs d).map NodeMetrics.name = visibleNamesList cs
  | _, [], _ => rfl
  | denom, c :: cs, d => by
    have h1 := analyzeNode_map_name denom c d
    have h2 := analyzeList_map_name denom cs d
    simp [analyzeList, visibleNamesList, h1, h2]

end

mutual

theorem Node.stripNames_counts : ∀ (n : Node),
    n.stripNames.totalChildren = n.totalChildren ∧
      n.stripNames.directChildren = n.directChildren
  | .mk _ none => ⟨rfl, rfl⟩
  | .mk _ (some cs) => by
    have h := stripNamesList_counts cs
    simp [Node.stripNames, Node.totalChildren, Node.directChildren, h.1, h.2]

theorem stripNamesList_counts : ∀ (cs : List Node),
    totalChildrenList (stripNamesList cs) = totalChildrenList cs ∧
      (stripNamesList cs).length = cs.length
  | [] => ⟨rfl, rfl⟩
  | c :: cs => by
    have h1 := Node.stripNames_counts c
    have h2 := stripNamesList_counts cs
    simp [stripNamesList, totalChildrenList, h1.1, h2.1, h2.2]

end

mutual

theorem Node.namedCount_eq_size_of_allNamed : ∀ (n : Node),
    n.allNamed = true → n.namedCount = n.size
  | .mk nm none => by
    cases nm <;> simp [Node.allNamed, Node.namedCount, Node.size]
  | .mk nm (some cs) => by
    have h := namedCountList_eq_sizeList_of_allNamed cs
    cases nm with
    | none => intro hfalse; simp [Node.allNamed] at hfalse
    | some s =>
      simp only [Node.allNamed, Option.isSome_some, Bool.true_and, Node.namedCount,
        Node.size]
      intro hcs
      simp [h hcs]

theorem namedCountList_eq_sizeList_of_allNamed : ∀ (cs : List Node),
    allNamedList cs = true → namedCountList cs = sizeList cs
  | [] => fun _ => rfl
  | c :: cs => by
    have h1 := Node.namedCount_eq_size_of_allNamed c
    have h2 := namedCountList_eq_sizeList_of_allNamed cs
    simp only [allNamedList, namedCountList, sizeList, Bool.and_eq_true]
    rintro ⟨hc, hcs⟩
    simp [h1 hc, h2 hcs]

end

mutual

theorem mem_analyzeNode_props : ∀ (denom : Nat) (n : Node) (d : Nat) (m : NodeMetrics),
    m ∈ analyzeNode denom n d →
      (m.coverage_ratio = if denom = 0 then 0 else (m.total_children : ℚ) / (denom : ℚ)) ∧
      (m.efficiency = if 0 < m.depth then (m.total_children : ℚ) / ((m.depth : ℚ) + 1)
        else (m.total_children : ℚ)) ∧
      m.total_children + 1 ≤ n.size
  | denom, .mk none cs, d, m => by
    intro hm
    simp [analyzeNode] at hm
  | denom, .mk (some nm) none, d, m => by
    intro hm
    simp only [analyzeNode, List.mem_singleton] at hm
    subst hm
    refine ⟨rfl, rfl, ?_⟩
    have h := Node.totalChildren_add_one (.mk (some nm) none)
    simp only [mkMetrics]
    omega
  | denom, .mk (some nm) (some cs), d, m => by
    intro hm
    simp only [analyzeNode, List.mem_cons] at hm
    rcases hm with hm | hm
    · subst hm
      refine ⟨rfl, rfl, ?_⟩
      have h := Node.totalChildren_add_one (.mk (some nm) (some cs))
      simp only [mkMetrics]
      omega
    · have h := mem_analyzeList_props denom cs (d + 1) m hm
      refine ⟨h.1, h.2.1, ?_⟩
      have h2 := h.2.2
      simp only [Node.size]
      omega

theorem mem_analyzeList_props : ∀ (denom : Nat) (cs : List Node) (d : Nat) (m : NodeMetrics),
    m ∈ analyzeList denom cs d →
      (m.coverage_ratio = if denom = 0 then 0 else (m.total_children : ℚ) / (denom : ℚ)) ∧
      (m.efficiency = if 0 < m.depth then (m.total_children : ℚ) / ((m.depth : ℚ) + 1)
        else (m.total_children : ℚ)) ∧
      m.total_children + 1 ≤ sizeList cs
  | denom, [], d, m => by
    intro hm
    simp [analyzeList] at hm
  | denom, c :: cs, d, m => by
    intro hm
    simp only [analyzeList, List.mem_append] at hm
    rcases hm with hm | hm
    · have h := mem_analyzeNode_props denom c d m hm
      refine ⟨h.1, h.2.1, ?_⟩
      have h2 := h.2.2
      simp only [sizeList]
      omega
    · have h := mem_analyzeList_props denom cs d m hm
      refine ⟨h.1, h.2.1, ?_⟩
      have h2 := h.2.2
      simp only [sizeList]
      omega

end

theorem effGE_trans : ∀ (a b c : NodeMetrics), effGE a b → effGE b c → effGE a c := by
  intro a b c hab hbc
  simp only [effGE, decide_eq_true_eq] at *
  exact le_trans hbc hab

theorem effGE_total : ∀ (a b : NodeMetrics), effGE a b || effGE b a := by
  intro a b
  simp only [effGE, Bool.or_eq_true, decide_eq_true_eq]
  exact le_total b.efficiency a.efficiency

/-- C7: for every node, `total_children` equals `direct_children` plus the
sum of the children's `total_children` (the recurrence of
`count_children_recursive`). -/
theorem C7_totalChildren_recurrence (n : Node) :
    n.totalChildren = n.directChildren + (n.childList.map Node.totalChildren).sum := by
  match n with
  | .mk nm none => rfl
  | .mk nm (some cs) =>
    simp [Node.totalChildren, Node.directChildren, Node.childList, Node.children?,
      ← totalChildrenList_eq_sum]

/-- C8: over any tree, the sum of `direct_children` across all nodes is
the total node count minus one. -/
theorem C8_sumDirect_eq_size_sub_one (t : Node) : t.sumDirect = t.size - 1 := by
  have h := Node.sumDirect_add_one t
  omega

/-- C10: `direct_children` and `total_children` ignore `name` fields
entirely — stripping every name changes neither count — and
`total_children` counts every strict descendant: it equals the subtree's
node count minus one. -/
theorem C10_counts_ignore_names (n : Node) :
    n.stripNames.totalChildren = n.totalChildren ∧
      n.stripNames.directChildren = n.directChildren ∧
      n.totalChildren = n.size - 1 := by
  have h1 := Node.stripNames_counts n
  have h2 := Node.totalChildren_add_one n
  exact ⟨h1.1, h1.2, by omega⟩

/-- C3: the analyzer's output lists exactly the names of the nodes
reachable without crossing a nameless node, in pre-order: a node missing
`name` and its whole subtree produce no entry, while the rest of the tree
is still processed; on `A → [B(no name, children [D,E]), C]` the output
names are exactly `["A", "C"]`. -/
theorem C3_nameless_subtree_dropped :
    (∀ t : Node, (analyze_hierarchy t).map NodeMetrics.name = visibleNames t) ∧
      (analyze_hierarchy malformedTree).map NodeMetrics.name = ["A", "C"] := by
  refine ⟨fun t => analyzeNode_map_name _ t 0, ?_⟩
  rw [analyze_hierarchy, analyzeNode_map_name]
  decide

/-- C4: a metrics record is in the output of `find_optimal_parents` iff it
is in the input and satisfies `has_children ∧ total_children ≥
min_children ∧ depth ≤ max_depth ∧ name ≠ "related_to"`; consequently a
record named `related_to` never appears in the output. -/
theorem C4_optimal_membership (analysis : List NodeMetrics) (mc md : Nat) (m : NodeMetrics) :
    (m ∈ find_optimal_parents analysis mc md ↔
      (m ∈ analysis ∧ m.has_children = true ∧ mc ≤ m.total_children ∧
        m.depth ≤ md ∧ m.name ≠ "related_to")) ∧
    (m.name = "related_to" → m ∉ find_optimal_parents analysis mc md) := by
  have key : m ∈ find_optimal_parents analysis mc md ↔
      (m ∈ analysis ∧ m.has_children = true ∧ mc ≤ m.total_children ∧
        m.depth ≤ md ∧ m.name ≠ "related_to") := by
    simp [find_optimal_parents, List.mem_filter, optimalFilter, and_assoc]
  exact ⟨key, fun hname hmem => ((key.mp hmem).2.2.2.2) hname⟩

/-- Witness for C4 at concrete inputs: a passing record is kept, a
`related_to` record is dropped. -/
theorem C4_optimal_membership_witness :
    passEntry ∈ find_optimal_parents [passEntry] 1 3 ∧
      relatedToEntry ∉ find_optimal_parents [relatedToEntry] 0 99 :=
  ⟨(C4_optimal_membership [passEntry] 1 3 passEntry).1.mpr
      ⟨by simp, rfl, by decide, by decide, by decide⟩,
    (C4_optimal_membership [relatedToEntry] 0 99 relatedToEntry).2 rfl⟩

theorem analyzeNode_head (denom : Nat) (nm : String) (cs : Option (List Node)) (d : Nat) :
    (analyzeNode denom (.mk (some nm) cs) d).head? = some (mkMetrics denom nm cs d) := by
  cases cs <;> rfl

/-- C5: the output of `find_optimal_parents` is sorted in descending order
of efficiency, and the sort is stable: two surviving records of equal
efficiency keep the relative order they had in the input list. -/
theorem C5_sorted_stable (analysis : List NodeMetrics) (mc md : Nat) :
    (find_optimal_parents analysis mc md).Pairwise
        (fun a b => b.efficiency ≤ a.efficiency) ∧
      (∀ a b : NodeMetrics, a.efficiency = b.efficiency →
        optimalFilter mc md a = true → optimalFilter mc md b = true →
        [a, b].Sublist analysis →
        [a, b].Sublist (find_optimal_parents analysis mc md)) := by
  constructor
  · have h := List.sorted_mergeSort effGE_trans effGE_total
      (analysis.filter (optimalFilter mc md))
    exact h.imp (fun hab => by simpa [effGE] using hab)
  · intro a b heq ha hb hsub
    have hfil : [a, b].Sublist (analysis.filter (optimalFilter mc md)) := by
      simpa [List.filter_cons, ha, hb] using hsub.filter (optimalFilter mc md)
    exact List.pair_sublist_mergeSort effGE_trans effGE_total
      (by simp [effGE, heq]) hfil

/-- Witness for C5 at a concrete input: two equal-efficiency records keep
their input order in the output. -/
theorem C5_sorted_stable_witness :
    [twinEntry1, twinEntry2].Sublist (find_optimal_parents [twinEntry1, twinEntry2] 1 3) :=
  (C5_sorted_stable [twinEntry1, twinEntry2] 1 3).2 twinEntry1 twinEntry2 rfl
    (by decide) (by decide) (List.Sublist.refl _)

/-- C6: the computed Set Builder strategy takes, from the ranked
optimal-parents list, the names of the first 5 entries (`comprehensive`),
of the first 8 entries with `total_children ∈ [20, 50]` (`focused`), of
the first 6 with `total_children ∈ [5, 20]` (`minimal`), and of the
first 6 with `depth ≤ 2` (`high_level`); every sub-selection is a
sublist of the incoming list, so its order is preserved without
re-sorting. -/
theorem C6_predicate_sets (analysis : List NodeMetrics) :
    (create_predicate_sets analysis).comprehensive =
        ((find_optimal_parents analysis 10 2).take 5).map NodeMetrics.name ∧
      (create_predicate_sets analysis).focused =
        (((find_optimal_parents analysis 10 2).filter
            (fun p => decide (20 ≤ p.total_children ∧ p.total_children ≤ 50))).take 8).map
          NodeMetrics.name ∧
      (create_predicate_sets analysis).minimal =
        (((find_optimal_parents analysis 10 2).filter
            (fun p => decide (5 ≤ p.total_children ∧ p.total_children ≤ 20))).take 6).map
          NodeMetrics.name ∧
      (create_predicate_sets analysis).high_level =
        (((find_optimal_parents analysis 10 2).filter
            (fun p => decide (p.depth ≤ 2))).take 6).map NodeMetrics.name ∧
      ((find_optimal_parents analysis 10 2).take 5).Sublist
        (find_optimal_parents analysis 10 2) ∧
      (((find_optimal_parents analysis 10 2).filter
          (fun p => decide (20 ≤ p.total_children ∧ p.total_children ≤ 50))).take 8).Sublist
        (find_optimal_parents analysis 10 2) ∧
      (((find_optimal_parents analysis 10 2).filter
          (fun p => decide (5 ≤ p.total_children ∧ p.total_children ≤ 20))).take 6).Sublist
        (find_optimal_parents analysis 10 2) ∧
      (((find_optimal_parents analysis 10 2).filter
          (fun p => decide (p.depth ≤ 2))).take 6).Sublist
        (find_optimal_parents analysis 10 2) := by
  refine ⟨?_, ?_, ?_, ?_,
    List.take_sublist _ _,
    (List.take_sublist _ _).trans (List.filter_sublist _),
    (List.take_sublist _ _).trans (List.filter_sublist _),
    (List.take_sublist _ _).trans (List.filter_sublist _)⟩ <;>
  simp [create_predicate_sets]

/-- C1 counterexample: in the spec's worked example the analyzer emits,
for node `B` (depth 1, `total_children` 5), an efficiency of 5/2, not
`total_children / depth = 5`. -/
theorem C1_counterexample :
    (analyze_hierarchy exampleTree).get? 1 = some bEntry ∧
      bEntry.depth = 1 ∧ bEntry.total_children = 5 ∧
      bEntry.efficiency ≠ (bEntry.total_children : ℚ) / (bEntry.depth : ℚ) ∧
      bEntry.efficiency ≠ 5 := by
  refine ⟨?_, rfl, rfl, by norm_num [bEntry], by norm_num [bEntry]⟩
  simp [analyze_hierarchy, analyzeNode, analyzeList, mkMetrics, extract_all_predicates,
    extractList, Node.totalChildren, totalChildrenList, Node.directChildren,
    exampleTree, bEntry]
  norm_num

/-- C1 amended: every record the analyzer emits satisfies
`efficiency = total_children / (depth + 1)` when `depth > 0`, and
`efficiency = total_children` at the root depth 0; in the worked
example, node `B` at depth 1 with `total_children` 5 has efficiency
5/2. -/
theorem C1_amended_efficiency (root : Node) (m : NodeMetrics)
    (hm : m ∈ analyze_hierarchy root) :
    m.efficiency = if 0 < m.depth then (m.total_children : ℚ) / ((m.depth : ℚ) + 1)
      else (m.total_children : ℚ) :=
  (mem_analyzeNode_props _ root 0 m hm).2.1

/-- Witness for C1's amended theorem at a concrete two-node tree. -/
theorem C1_amended_efficiency_witness :
    (mkMetrics 2 "B" none 1).efficiency =
      if 0 < (mkMetrics 2 "B" none 1).depth
      then ((mkMetrics 2 "B" none 1).total_children : ℚ) /
        (((mkMetrics 2 "B" none 1).depth : ℚ) + 1)
      else ((mkMetrics 2 "B" none 1).total_children : ℚ) :=
  C1_amended_efficiency (.mk (some "A") (some [.mk (some "B") none]))
    (mkMetrics 2 "B" none 1)
    (by
      have h : analyze_hierarchy (.mk (some "A") (some [.mk (some "B") none])) =
          [mkMetrics 2 "A" (some [.mk (some "B") none]) 0, mkMetrics 2 "B" none 1] := by
        rfl
      rw [h]
      exact List.mem_cons_of_mem _ (List.mem_cons_self _ _))

/-- C2 counterexample: on `A → [B(no name, children [D,E]), C]` the fixed
predicate list contains `D` (a name inside the dropped subtree) and has
length 4, not 2. -/
theorem C2_counterexample :
    "D" ∈ extract_all_predicates malformedTree ∧
      (extract_all_predicates malformedTree).length ≠ 2 := by decide

/-- C2 amended: the fixed denominator list, computed once before
analysis, contains the name of every named node of the whole tree —
names inside a subtree rooted at a nameless node included, only nameless
nodes themselves contributing nothing — so in the example its length is
4. -/
theorem C2_amended_denominator :
    (∀ t : Node, (extract_all_predicates t).length = t.namedCount) ∧
      (extract_all_predicates malformedTree).length = 4 :=
  ⟨extract_length_eq_namedCount, by decide⟩

/-- C9 counterexample: on `A → B(no name) → C(no name)` the analyzer
emits a single record, for `A`, whose `coverage_ratio` is 2 — outside
`[0, 1]` — while the tree has 3 nodes, so the claimed root value would
be 2/3. -/
theorem C9_counterexample :
    analyze_hierarchy namelessChainTree = [chainEntry] ∧
      ¬ chainEntry.coverage_ratio ≤ 1 ∧
      namelessChainTree.size = 3 ∧
      chainEntry.coverage_ratio ≠
        ((namelessChainTree.size : ℚ) - 1) / (namelessChainTree.size : ℚ) := by
  refine ⟨?_, by norm_num [chainEntry], by decide, ?_⟩
  · simp [analyze_hierarchy, analyzeNode, analyzeList, mkMetrics, extract_all_predicates,
      extractList, Node.totalChildren, totalChildrenList, Node.directChildren,
      namelessChainTree, chainEntry]
  · have hsize : namelessChainTree.size = 3 := by decide
    rw [hsize]
    norm_num [chainEntry]

/-- C9 amended: when every node of the tree carries a `name`, every
emitted `coverage_ratio` lies in `[0, 1]` and the root's record (the
head of the output) has `coverage_ratio = (|nodes| − 1) / |nodes|`. -/
theorem C9_amended_coverage (t : Node) (ht : t.allNamed = true) :
    (∀ m ∈ analyze_hierarchy t, 0 ≤ m.coverage_ratio ∧ m.coverage_ratio ≤ 1) ∧
      (∀ m ∈ (analyze_hierarchy t).head?,
        m.coverage_ratio = ((t.size : ℚ) - 1) / (t.size : ℚ)) := by
  have hdenom : (extract_all_predicates t).length = t.size :=
    (extract_length_eq_namedCount t).trans (Node.namedCount_eq_size_of_allNamed t ht)
  have hpos : 1 ≤ t.size := by
    have h := Node.totalChildren_add_one t
    omega
  constructor
  · intro m hm
    obtain ⟨hcov, -, hle⟩ := mem_analyzeNode_props _ t 0 m hm
    rw [hdenom] at hcov
    rw [hcov, if_neg (by omega)]
    refine ⟨by positivity, ?_⟩
    rw [div_le_one (by exact_mod_cast Nat.lt_of_lt_of_le Nat.zero_lt_one hpos)]
    exact_mod_cast (by omega : m.total_children ≤ t.size)
  · intro m hm
    cases t with
    | mk nm cs =>
      cases nm with
      | none => cases cs <;> simp [Node.allNamed] at ht
      | some s =>
        rw [analyze_hierarchy, analyzeNode_head] at hm
        have hm' : m = mkMetrics ((extract_all_predicates (.mk (some s) cs)).length)
            s cs 0 := by simpa using hm.symm
        subst hm'
        have htc : (Node.totalChildren (Node.mk (some s) cs) : ℚ) =
            ((Node.mk (some s) cs).size : ℚ) - 1 := by
          have h := Node.totalChildren_add_one (Node.mk (some s) cs)
          have h2 := congrArg (Nat.cast : ℕ → ℚ) h
          push_cast at h2
          linarith
        simp only [mkMetrics]
        rw [hdenom, if_neg (by omega), htc]

/-- Witness for C9's amended theorem on a concrete all-named tree. -/
theorem C9_amended_coverage_witness :
    0 ≤ (mkMetrics 1 "A" none 0).coverage_ratio ∧
      (mkMetrics 1 "A" none 0).coverage_ratio ≤ 1 :=
  (C9_amended_coverage (.mk (some "A") none) (by decide)).1
    (mkMetrics 1 "A" none 0)
    (by
      have h : analyze_hierarchy (.mk (some "A") none) = [mkMetrics 1 "A" none 0] := rfl
      rw [h]
      exact List.mem_singleton.mpr rfl)

